import Mathlib

/-!
Verification model of `file_concierge.py`.

The program scans a directory tree and reports aggregate statistics by file
extension, recursive per-directory rollups, and probable duplicate files
(grouped by size, confirmed by content hash).

Modelling choices (shallow embedding):
* Python dicts (all of them `defaultdict`s, insertion-ordered) are modelled as
  association lists: updating an existing key keeps its position, a new key is
  appended at the end — exactly Python's iteration order.
* The filesystem walk of `scan_directory` is modelled as the stream of
  per-file events it processes: each event carries the containing directory
  (relative to the scan root, as a component list, `[]` standing for `Path "."`),
  the file name, and the result of `path.stat().st_size` — `none` models the
  `FileNotFoundError` / `PermissionError` caught at lines 59-63.
* `hash_file` performs I/O, so the Hasher is an oracle
  `hashFn : FPath → Option String`; `none` models the
  `FileNotFoundError` / `PermissionError` / `OSError` caught at lines 121-124
  of `find_duplicate_candidates`.
* `pathlib.PurePath.suffix` and `str.lower` (used at line 70) are modelled
  after their CPython definitions in `pySuffix` / `pyLower`.
-/

/-- A file path: directory components relative to the scan root, plus name. -/
structure FPath where
  dir : List String
  name : String
deriving DecidableEq

/-- One file event seen by the walk of `scan_directory`: the containing
directory, the file name, and the `stat().st_size` outcome (`none` when the
entry vanished or permission was denied). -/
structure FileEntry where
  dir : List String
  name : String
  stat : Option Nat
deriving DecidableEq

/-- Per-extension accumulator `{"count": 0, "size": 0}` (line 42). -/
structure ExtStats where
  count : Nat
  size : Nat
deriving DecidableEq

/-- Per-directory accumulator `{"count": 0, "size": 0, "ext": ...}` (lines 46-50). -/
structure DirStats where
  count : Nat
  size : Nat
  ext : List (String × ExtStats)
deriving DecidableEq

/-- The dictionary returned by `scan_directory` (lines 93-100). -/
structure ScanResult where
  all_files : List (FPath × Nat)
  ext_stats : List (String × ExtStats)
  size_index : List (Nat × List FPath)
  dir_stats : List (List String × DirStats)
  total_files : Nat
  total_size : Nat
deriving DecidableEq

section Alist

variable {K V : Type} [DecidableEq K]

/-- Lookup in an insertion-ordered dict, with the defaultdict default. -/
def alistGet (m : List (K × V)) (k : K) (v0 : V) : V :=
  match m with
  | [] => v0
  | (k1, v) :: rest => if k = k1 then v else alistGet rest k v0

/-- Defaultdict update `m[k] = f(m[k])`: an existing key keeps its position,
a missing key is appended at the end with value `f v0`. -/
def alistUpd (m : List (K × V)) (k : K) (f : V → V) (v0 : V) : List (K × V) :=
  match m with
  | [] => [(k, f v0)]
  | (k1, v) :: rest =>
    if k = k1 then (k1, f v) :: rest else (k1, v) :: alistUpd rest k f v0

/-- The keys of an association list, in order. -/
def alistKeys (m : List (K × V)) : List K :=
  m.map Prod.fst

end Alist

/-- CPython `str.rfind('.')` on the character list: index of the last dot. -/
def lastDot : List Char → Option Nat
  | [] => none
  | c :: rest =>
    match lastDot rest with
    | some i => some (i + 1)
    | none => if c = '.' then some 0 else none

/-- `pathlib.PurePath.suffix` of a file name:
`i = name.rfind('.'); name[i:] if 0 < i < len(name) - 1 else ''`. -/
def pySuffix (name : String) : String :=
  match lastDot name.data with
  | none => ""
  | some i =>
    if 0 < i ∧ i < name.data.length - 1 then { data := name.data.drop i }
    else ""

/-- `str.lower`, character by character (ASCII-accurate). -/
def pyLower (s : String) : String :=
  { data := s.data.map Char.toLower }

/-- Line 70: `ext = path.suffix.lower() or "<no_ext>"` (the empty string is
falsy, so it is replaced by the sentinel). `path.suffix` only looks at the
final component, i.e. the file name. -/
def extKey (name : String) : String :=
  if pyLower (pySuffix name) = "" then "<no_ext>" else pyLower (pySuffix name)

/-- Lines 71-72 / 90-91: bump one extension's counters in an extension map. -/
def bumpExt (m : List (String × ExtStats)) (k : String) (sz : Nat) :
    List (String × ExtStats) :=
  alistUpd m k (fun s => { count := s.count + 1, size := s.size + sz })
    { count := 0, size := 0 }

/-- Lines 88-91: bump one directory's counters for a file of size `sz` and
extension key `ek`. -/
def bumpDir (sz : Nat) (ek : String) (ds : DirStats) : DirStats :=
  { count := ds.count + 1, size := ds.size + sz, ext := bumpExt ds.ext ek sz }

/-- The defaultdict default for `dir_stats` (lines 46-50). -/
def dirDefault : DirStats :=
  { count := 0, size := 0, ext := [] }

/-- Lines 81-85: the directory itself and all its ancestors up to and
including the root. `ancestors [] = [[]]` models `ancestors = [Path(".")]`;
otherwise `[rel_dir] + list(rel_dir.parents)`, where `parents` yields the
successively shorter parent directories ending at `Path(".")` (here `[]`) —
i.e. the component-list prefixes of `rel_dir` in decreasing length. -/
def ancestors (d : List String) : List (List String) :=
  d.inits.reverse

/-- The body of the per-file loop of `scan_directory` (lines 57-91). -/
def scanStep (st : ScanResult) (e : FileEntry) : ScanResult :=
  match e.stat with
  | none => st
  | some size =>
    let path : FPath := { dir := e.dir, name := e.name }
    let ext := extKey e.name
    { all_files := st.all_files ++ [(path, size)]
      ext_stats := bumpExt st.ext_stats ext size
      size_index := alistUpd st.size_index size (fun l => l ++ [path]) []
      dir_stats := (ancestors e.dir).foldl
        (fun m anc => alistUpd m anc (bumpDir size ext) dirDefault) st.dir_stats
      total_files := st.total_files + 1
      total_size := st.total_size + size }

/-- The empty accumulators of lines 41-53. -/
def emptyScan : ScanResult :=
  { all_files := [], ext_stats := [], size_index := [], dir_stats := [],
    total_files := 0, total_size := 0 }

/-- `scan_directory` (lines 29-100), as a fold of `scanStep` over the stream
of file events produced by the walk. -/
def scan_directory (entries : List FileEntry) : ScanResult :=
  entries.foldl scanStep emptyScan

/-- The `(path, size)` pairs of the accessible files of the walk, i.e. the
events whose `stat` succeeded, in walk order. -/
def accessedFiles (entries : List FileEntry) : List (FileEntry × Nat) :=
  entries.filterMap (fun e => e.stat.map (fun sz => (e, sz)))

/-- The body of the hashing loop (lines 120-125): hash one path, silently
dropping it when `hash_file` raises. -/
def hbStep (hashFn : FPath → Option String)
    (b : List (String × List FPath)) (path : FPath) :
    List (String × List FPath) :=
  match hashFn path with
  | none => b
  | some h => alistUpd b h (fun l => l ++ [path]) []

/-- Lines 119-125: `hash_buckets`, the digest → paths map of one size bucket. -/
def hashBuckets (hashFn : FPath → Option String) (paths : List FPath) :
    List (String × List FPath) :=
  paths.foldl (hbStep hashFn) []

/-- Lines 127-130: the confirmed duplicate groups contributed by one size
bucket — the hash buckets with at least two members. -/
def bucketGroups (hashFn : FPath → Option String) (paths : List FPath) :
    List (List FPath) :=
  ((hashBuckets hashFn paths).filter (fun hb => hb.2.length > 1)).map
    (fun hb => hb.2)

/-- Line 114: `{size: paths for size, paths in size_index.items() if len(paths) > 1}`. -/
def candidateBuckets (size_index : List (Nat × List FPath)) :
    List (Nat × List FPath) :=
  size_index.filter (fun sp => sp.2.length > 1)

/-- `find_duplicate_candidates` (lines 108-132), parameterized by the Hasher
oracle `hashFn` standing for `hash_file`. -/
def find_duplicate_candidates (hashFn : FPath → Option String)
    (size_index : List (Nat × List FPath)) : List (List FPath) :=
  (candidateBuckets size_index).foldl
    (fun duplicates sp => duplicates ++ bucketGroups hashFn sp.2) []

/-- The sequence of paths passed to `hash_file` by `find_duplicate_candidates`
(line 122): every path of every retained size bucket, in iteration order —
including the paths whose hashing then fails. -/
def hashedPaths (size_index : List (Nat × List FPath)) : List FPath :=
  (candidateBuckets size_index).foldl (fun acc sp => acc ++ sp.2) []

/-! ## Association-list lemmas -/

section AlistLemmas

variable {K V : Type} [DecidableEq K]

theorem alistGet_upd (m : List (K × V)) (k k1 : K) (f : V → V) (v0 : V) :
    alistGet (alistUpd m k f v0) k1 v0 =
      if k1 = k then f (alistGet m k v0) else alistGet m k1 v0 := by
  induction m with
  | nil =>
    by_cases h : k1 = k <;> simp [alistUpd, alistGet, h]
  | cons a t ih =>
    obtain ⟨ka, va⟩ := a
    by_cases hk : k = ka
    · subst hk
      by_cases h1 : k1 = k <;> simp [alistUpd, alistGet, h1]
    · by_cases h1 : k1 = ka
      · subst h1
        have : ¬ k1 = k := fun e => hk e.symm
        simp [alistUpd, alistGet, hk, this]
      · simp [alistUpd, alistGet, hk, h1, ih]

omit [DecidableEq K] in
theorem alistKeys_nil : alistKeys ([] : List (K × V)) = [] := rfl

omit [DecidableEq K] in
theorem alistKeys_cons (a : K × V) (t : List (K × V)) :
    alistKeys (a :: t) = a.1 :: alistKeys t := rfl

theorem alistKeys_upd (m : List (K × V)) (k : K) (f : V → V) (v0 : V) :
    alistKeys (alistUpd m k f v0) =
      if k ∈ alistKeys m then alistKeys m else alistKeys m ++ [k] := by
  induction m with
  | nil => simp [alistUpd, alistKeys]
  | cons a t ih =>
    obtain ⟨ka, va⟩ := a
    by_cases hk : k = ka
    · subst hk
      simp [alistUpd, alistKeys_cons]
    · simp only [alistUpd, if_neg hk, alistKeys_cons, ih]
      by_cases hm : k ∈ alistKeys t
      · simp [hm, hk, List.mem_cons]
      · simp [hm, hk, List.mem_cons]

theorem alistKeys_upd_nodup (m : List (K × V)) (k : K) (f : V → V) (v0 : V)
    (h : (alistKeys m).Nodup) : (alistKeys (alistUpd m k f v0)).Nodup := by
  rw [alistKeys_upd]
  by_cases hm : k ∈ alistKeys m
  · simpa [hm] using h
  · simpa [hm, List.nodup_append] using h

theorem alistGet_of_mem (m : List (K × V)) (k : K) (v : V) (v0 : V)
    (hnd : (alistKeys m).Nodup) (hm : (k, v) ∈ m) : alistGet m k v0 = v := by
  induction m with
  | nil => cases hm
  | cons a t ih =>
    obtain ⟨ka, va⟩ := a
    rw [alistKeys_cons] at hnd
    have hnd1 : (ka, va).1 ∉ alistKeys t := (List.nodup_cons.mp hnd).1
    have hnd2 : (alistKeys t).Nodup := (List.nodup_cons.mp hnd).2
    rcases List.mem_cons.mp hm with h | h
    · have h1 : k = ka := congrArg Prod.fst h
      have h2 : v = va := congrArg Prod.snd h
      subst h1; subst h2
      simp [alistGet]
    · have hne : ¬ k = ka := by
        intro e
        apply hnd1
        have hx : k ∈ alistKeys t := List.mem_map_of_mem Prod.fst h
        rwa [e] at hx
      simp [alistGet, hne, ih hnd2 h]

theorem mem_of_key_mem (m : List (K × V)) (k : K) (v0 : V)
    (h : k ∈ alistKeys m) : (k, alistGet m k v0) ∈ m := by
  induction m with
  | nil => simp [alistKeys] at h
  | cons a t ih =>
    obtain ⟨ka, va⟩ := a
    by_cases hk : k = ka
    · subst hk
      simp [alistGet]
    · have : k ∈ alistKeys t := by
        simpa [alistKeys, hk] using h
      simp [alistGet, hk, List.mem_cons, ih this]

theorem alistGet_of_not_mem (m : List (K × V)) (k : K) (v0 : V)
    (h : k ∉ alistKeys m) : alistGet m k v0 = v0 := by
  induction m with
  | nil => simp [alistGet]
  | cons a t ih =>
    obtain ⟨ka, va⟩ := a
    have hk : ¬ k = ka := fun e => h (by simp [alistKeys, e])
    have ht : k ∉ alistKeys t := fun e => h (by simp [alistKeys]; right; simpa [alistKeys] using e)
    simp [alistGet, hk, ih ht]

theorem alistGet_foldl_upd (f : V → V) (v0 : V) (ks : List K) (hnd : ks.Nodup)
    (m : List (K × V)) (d : K) :
    alistGet (ks.foldl (fun m1 k => alistUpd m1 k f v0) m) d v0 =
      if d ∈ ks then f (alistGet m d v0) else alistGet m d v0 := by
  induction ks generalizing m with
  | nil => simp
  | cons k rest ih =>
    have hk : k ∉ rest := (List.nodup_cons.mp hnd).1
    have hnd2 : rest.Nodup := (List.nodup_cons.mp hnd).2
    rw [List.foldl_cons, ih hnd2]
    by_cases hd : d ∈ rest
    · have hdk : ¬ d = k := fun e => hk (e ▸ hd)
      simp [hd, hdk, alistGet_upd]
    · by_cases hdk : d = k
      · subst hdk
        simp [hd, alistGet_upd]
      · simp [hd, hdk, alistGet_upd]

end AlistLemmas

/-! ## Ancestor-chain lemmas -/

theorem inits_nodup {α : Type} : ∀ l : List α, l.inits.Nodup := by
  intro l
  induction l with
  | nil =>
    have h0 : ([] : List α).inits = [[]] := rfl
    rw [h0]
    exact List.nodup_singleton _
  | cons a t ih =>
    rw [List.inits_cons, List.nodup_cons]
    constructor
    · intro hmem
      obtain ⟨y, _, hey⟩ := List.mem_map.mp hmem
      cases hey
    · apply List.Nodup.map ?_ ih
      intro x y hxy
      simpa using hxy

theorem mem_ancestors_nil (d : List String) : [] ∈ ancestors d := by
  unfold ancestors
  rw [List.mem_reverse]
  cases d with
  | nil => exact List.mem_singleton_self _
  | cons a t =>
    rw [List.inits_cons]
    exact List.mem_cons_self _ _

theorem ancestors_nodup (d : List String) : (ancestors d).Nodup := by
  unfold ancestors
  rw [List.nodup_reverse]
  exact inits_nodup d

/-! ## Characterization of the directory rollups built by `scan_directory` -/

/-- The `dir_stats` entry for directory `d` (with the defaultdict default). -/
def dirGet (m : List (List String × DirStats)) (d : List String) : DirStats :=
  alistGet m d dirDefault

/-- The extension entry for key `k` (with the defaultdict default). -/
def extGet (m : List (String × ExtStats)) (k : String) : ExtStats :=
  alistGet m k { count := 0, size := 0 }

theorem dirGet_foldAncestors (sz : Nat) (ek : String) (anc : List (List String))
    (hnd : anc.Nodup) (m : List (List String × DirStats)) (d : List String) :
    dirGet (anc.foldl (fun m1 a => alistUpd m1 a (bumpDir sz ek) dirDefault) m) d =
      if d ∈ anc then bumpDir sz ek (dirGet m d) else dirGet m d := by
  have h := alistGet_foldl_upd (bumpDir sz ek) dirDefault anc hnd m d
  simp only [dirGet]
  rw [h]
  by_cases hd : d ∈ anc <;> simp [hd]

theorem extGet_bumpExt (m : List (String × ExtStats)) (k k1 : String) (sz : Nat) :
    extGet (bumpExt m k sz) k1 =
      if k1 = k then
        { count := (extGet m k).count + 1, size := (extGet m k).size + sz }
      else extGet m k1 :=
  alistGet_upd m k k1 _ _

/-- The accessible files counted under directory `d`, i.e. those whose own
directory has `d` in its ancestor chain (itself, a parent, … or the root). -/
def filesUnder (entries : List FileEntry) (d : List String) :
    List (FileEntry × Nat) :=
  (accessedFiles entries).filter (fun es => decide (d ∈ ancestors es.1.dir))

/-- Those of `filesUnder entries d` whose extension key is `k`. -/
def filesUnderKey (entries : List FileEntry) (d : List String) (k : String) :
    List (FileEntry × Nat) :=
  (accessedFiles entries).filter
    (fun es => decide (d ∈ ancestors es.1.dir) && decide (extKey es.1.name = k))

/-- Total byte size of a list of `(file, size)` records. -/
def sizesSum (l : List (FileEntry × Nat)) : Nat :=
  (l.map (fun es => es.2)).sum

theorem bumpDir_count (sz : Nat) (ek : String) (ds : DirStats) :
    (bumpDir sz ek ds).count = ds.count + 1 := rfl

theorem bumpDir_size (sz : Nat) (ek : String) (ds : DirStats) :
    (bumpDir sz ek ds).size = ds.size + sz := rfl

theorem bumpDir_ext (sz : Nat) (ek : String) (ds : DirStats) :
    (bumpDir sz ek ds).ext = bumpExt ds.ext ek sz := rfl

theorem scan_dirCount (entries : List FileEntry) :
    ∀ (st : ScanResult) (d : List String),
      (dirGet (entries.foldl scanStep st).dir_stats d).count =
        (dirGet st.dir_stats d).count + (filesUnder entries d).length := by
  induction entries with
  | nil => intro st d; simp [filesUnder, accessedFiles]
  | cons e t ih =>
    intro st d
    rw [List.foldl_cons, ih]
    cases he : e.stat with
    | none =>
      have h1 : scanStep st e = st := by simp [scanStep, he]
      rw [h1]
      simp [filesUnder, accessedFiles, List.filterMap_cons, he]
    | some sz =>
      have h2 : (scanStep st e).dir_stats = (ancestors e.dir).foldl
          (fun m anc => alistUpd m anc (bumpDir sz (extKey e.name)) dirDefault)
          st.dir_stats := by
        simp [scanStep, he]
      rw [h2, dirGet_foldAncestors _ _ _ (ancestors_nodup _)]
      by_cases hd : d ∈ ancestors e.dir
      · rw [if_pos hd, bumpDir_count]
        have hfil : filesUnder (e :: t) d = (e, sz) :: filesUnder t d := by
          simp [filesUnder, accessedFiles, List.filterMap_cons, he,
            List.filter_cons, hd]
        rw [hfil, List.length_cons]
        omega
      · rw [if_neg hd]
        have hfil : filesUnder (e :: t) d = filesUnder t d := by
          simp [filesUnder, accessedFiles, List.filterMap_cons, he,
            List.filter_cons, hd]
        rw [hfil]

theorem scan_dirSize (entries : List FileEntry) :
    ∀ (st : ScanResult) (d : List String),
      (dirGet (entries.foldl scanStep st).dir_stats d).size =
        (dirGet st.dir_stats d).size + sizesSum (filesUnder entries d) := by
  induction entries with
  | nil => intro st d; simp [filesUnder, accessedFiles, sizesSum]
  | cons e t ih =>
    intro st d
    rw [List.foldl_cons, ih]
    cases he : e.stat with
    | none =>
      have h1 : scanStep st e = st := by simp [scanStep, he]
      rw [h1]
      simp [filesUnder, accessedFiles, List.filterMap_cons, he]
    | some sz =>
      have h2 : (scanStep st e).dir_stats = (ancestors e.dir).foldl
          (fun m anc => alistUpd m anc (bumpDir sz (extKey e.name)) dirDefault)
          st.dir_stats := by
        simp [scanStep, he]
      rw [h2, dirGet_foldAncestors _ _ _ (ancestors_nodup _)]
      by_cases hd : d ∈ ancestors e.dir
      · rw [if_pos hd, bumpDir_size]
        have hfil : filesUnder (e :: t) d = (e, sz) :: filesUnder t d := by
          simp [filesUnder, accessedFiles, List.filterMap_cons, he,
            List.filter_cons, hd]
        rw [hfil]
        simp only [sizesSum, List.map_cons, List.sum_cons]
        omega
      · rw [if_neg hd]
        have hfil : filesUnder (e :: t) d = filesUnder t d := by
          simp [filesUnder, accessedFiles, List.filterMap_cons, he,
            List.filter_cons, hd]
        rw [hfil]

theorem scan_dirExtCount (entries : List FileEntry) :
    ∀ (st : ScanResult) (d : List String) (k : String),
      (extGet (dirGet (entries.foldl scanStep st).dir_stats d).ext k).count =
        (extGet (dirGet st.dir_stats d).ext k).count +
          (filesUnderKey entries d k).length := by
  induction entries with
  | nil => intro st d k; simp [filesUnderKey, accessedFiles]
  | cons e t ih =>
    intro st d k
    rw [List.foldl_cons, ih]
    cases he : e.stat with
    | none =>
      have h1 : scanStep st e = st := by simp [scanStep, he]
      rw [h1]
      simp [filesUnderKey, accessedFiles, List.filterMap_cons, he]
    | some sz =>
      have h2 : (scanStep st e).dir_stats = (ancestors e.dir).foldl
          (fun m anc => alistUpd m anc (bumpDir sz (extKey e.name)) dirDefault)
          st.dir_stats := by
        simp [scanStep, he]
      rw [h2, dirGet_foldAncestors _ _ _ (ancestors_nodup _)]
      by_cases hd : d ∈ ancestors e.dir
      · rw [if_pos hd, bumpDir_ext, extGet_bumpExt]
        by_cases hk : k = extKey e.name
        · subst hk
          rw [if_pos rfl]
          have hfil : filesUnderKey (e :: t) d (extKey e.name) =
              (e, sz) :: filesUnderKey t d (extKey e.name) := by
            simp [filesUnderKey, accessedFiles, List.filterMap_cons, he,
              List.filter_cons, hd]
          rw [hfil, List.length_cons]
          try dsimp only
          omega
        · rw [if_neg hk]
          have hkk : ¬ extKey e.name = k := fun h => hk h.symm
          have hfil : filesUnderKey (e :: t) d k = filesUnderKey t d k := by
            simp [filesUnderKey, accessedFiles, List.filterMap_cons, he,
              List.filter_cons, hd, hkk]
          rw [hfil]
      · rw [if_neg hd]
        have hfil : filesUnderKey (e :: t) d k = filesUnderKey t d k := by
          simp [filesUnderKey, accessedFiles, List.filterMap_cons, he,
            List.filter_cons, hd]
        rw [hfil]

theorem scan_dirExtSize (entries : List FileEntry) :
    ∀ (st : ScanResult) (d : List String) (k : String),
      (extGet (dirGet (entries.foldl scanStep st).dir_stats d).ext k).size =
        (extGet (dirGet st.dir_stats d).ext k).size +
          sizesSum (filesUnderKey entries d k) := by
  induction entries with
  | nil => intro st d k; simp [filesUnderKey, accessedFiles, sizesSum]
  | cons e t ih =>
    intro st d k
    rw [List.foldl_cons, ih]
    cases he : e.stat with
    | none =>
      have h1 : scanStep st e = st := by simp [scanStep, he]
      rw [h1]
      simp [filesUnderKey, accessedFiles, List.filterMap_cons, he]
    | some sz =>
      have h2 : (scanStep st e).dir_stats = (ancestors e.dir).foldl
          (fun m anc => alistUpd m anc (bumpDir sz (extKey e.name)) dirDefault)
          st.dir_stats := by
        simp [scanStep, he]
      rw [h2, dirGet_foldAncestors _ _ _ (ancestors_nodup _)]
      by_cases hd : d ∈ ancestors e.dir
      · rw [if_pos hd, bumpDir_ext, extGet_bumpExt]
        by_cases hk : k = extKey e.name
        · subst hk
          rw [if_pos rfl]
          have hfil : filesUnderKey (e :: t) d (extKey e.name) =
              (e, sz) :: filesUnderKey t d (extKey e.name) := by
            simp [filesUnderKey, accessedFiles, List.filterMap_cons, he,
              List.filter_cons, hd]
          rw [hfil]
          simp only [sizesSum, List.map_cons, List.sum_cons]
          try dsimp only
          omega
        · rw [if_neg hk]
          have hkk : ¬ extKey e.name = k := fun h => hk h.symm
          have hfil : filesUnderKey (e :: t) d k = filesUnderKey t d k := by
            simp [filesUnderKey, accessedFiles, List.filterMap_cons, he,
              List.filter_cons, hd, hkk]
          rw [hfil]
      · rw [if_neg hd]
        have hfil : filesUnderKey (e :: t) d k = filesUnderKey t d k := by
          simp [filesUnderKey, accessedFiles, List.filterMap_cons, he,
            List.filter_cons, hd]
        rw [hfil]

theorem filesUnder_root (entries : List FileEntry) :
    filesUnder entries [] = accessedFiles entries := by
  unfold filesUnder
  apply List.filter_eq_self.mpr
  intro a _
  simpa using mem_ancestors_nil a.1.dir

theorem dirGet_nil (d : List String) : dirGet [] d = dirDefault := rfl

theorem extGet_nil (k : String) :
    extGet [] k = { count := 0, size := 0 } := rfl

/-- C1: after `scan_directory`, the root `DirectoryStats` totalSize is the sum
of the sizes of every accessible file of the walk, and every directory's
count, totalSize and per-extension stats equal exactly the count/size of the
accessible files having that directory in their ancestor chain (own directory
and every ancestor up to the root, exactly once each — no double-counting, no
skipping). -/
theorem claim_C1_rollup (entries : List FileEntry) :
    (dirGet (scan_directory entries).dir_stats []).size =
        sizesSum (accessedFiles entries)
    ∧ ∀ d : List String,
        (dirGet (scan_directory entries).dir_stats d).count =
            (filesUnder entries d).length
        ∧ (dirGet (scan_directory entries).dir_stats d).size =
            sizesSum (filesUnder entries d)
        ∧ ∀ k : String,
            (extGet (dirGet (scan_directory entries).dir_stats d).ext k).count =
                (filesUnderKey entries d k).length
            ∧ (extGet (dirGet (scan_directory entries).dir_stats d).ext k).size =
                sizesSum (filesUnderKey entries d k) := by
  have hemp : emptyScan.dir_stats = [] := rfl
  constructor
  · have h := scan_dirSize entries emptyScan []
    rw [hemp, dirGet_nil] at h
    simpa [scan_directory, filesUnder_root, dirDefault] using h
  · intro d
    refine ⟨?_, ?_, ?_⟩
    · have h := scan_dirCount entries emptyScan d
      rw [hemp, dirGet_nil] at h
      simpa [scan_directory, dirDefault] using h
    · have h := scan_dirSize entries emptyScan d
      rw [hemp, dirGet_nil] at h
      simpa [scan_directory, dirDefault] using h
    · intro k
      constructor
      · have h := scan_dirExtCount entries emptyScan d k
        rw [hemp, dirGet_nil] at h
        simpa [scan_directory, dirDefault, extGet_nil] using h
      · have h := scan_dirExtSize entries emptyScan d k
        rw [hemp, dirGet_nil] at h
        simpa [scan_directory, dirDefault, extGet_nil] using h

/-- C4 counterexample: for an empty directory tree (zero files walked) the
`dir_stats` map returned by `scan_directory` is empty — contrary to the claim,
no root `DirectoryStats` entry is present at all (the defaultdict only
materializes the root entry when a first file is processed). -/
theorem claim_C4_counterexample :
    ¬ ∃ v : DirStats,
        (([] : List String), v) ∈ (scan_directory []).dir_stats := by
  rintro ⟨v, hv⟩
  simp [scan_directory, emptyScan] at hv

/-- C4 (amended): for an empty directory tree, `scan_directory` returns total
file count 0 and total size 0, `find_duplicate_candidates` returns the empty
sequence, and the directory-stats map is empty — the root entry is not
materialized (querying it through the defaultdict default would still read
count 0, i.e. `dirGet` of the root is `dirDefault`). -/
theorem claim_C4_empty_tree (hashFn : FPath → Option String) :
    (scan_directory []).total_files = 0
    ∧ (scan_directory []).total_size = 0
    ∧ find_duplicate_candidates hashFn (scan_directory []).size_index = []
    ∧ (scan_directory []).dir_stats = []
    ∧ dirGet (scan_directory []).dir_stats [] = dirDefault :=
  ⟨rfl, rfl, rfl, rfl, rfl⟩

/-- C8: an entry whose stat fails (vanished or permission denied) is silently
skipped: the whole scan result — all_files, global extension stats, size
index, directory stats, total count and total size — is identical to that of
the walk without the entry, and the other files are still fully counted. -/
theorem claim_C8_skip_stat_failure (pre post : List FileEntry) (e : FileEntry)
    (h : e.stat = none) :
    scan_directory (pre ++ e :: post) = scan_directory (pre ++ post) := by
  unfold scan_directory
  rw [List.foldl_append, List.foldl_append, List.foldl_cons]
  congr 1
  simp [scanStep, h]

theorem claim_C8_witness :
    (FileEntry.mk ["sub"] "gone.txt" none).stat = none
    ∧ scan_directory
          ([⟨[], "a.txt", some 100⟩] ++
            FileEntry.mk ["sub"] "gone.txt" none :: [⟨["sub"], "b.txt", some 50⟩]) =
        scan_directory ([⟨[], "a.txt", some 100⟩] ++ [⟨["sub"], "b.txt", some 50⟩]) :=
  ⟨rfl, claim_C8_skip_stat_failure [⟨[], "a.txt", some 100⟩]
    [⟨["sub"], "b.txt", some 50⟩] (FileEntry.mk ["sub"] "gone.txt" none) rfl⟩

/-- C9: determinism — for a fixed, unchanging set of input files (same walk
enumeration feeding `scan_directory`, same Hasher results), two runs of
`find_duplicate_candidates` produce the same sequence of duplicate groups.
In this model every container is insertion-ordered exactly as Python's dicts
are, so the output is a function of the inputs alone. -/
theorem claim_C9_deterministic (entries1 entries2 : List FileEntry)
    (hashFn1 hashFn2 : FPath → Option String)
    (he : entries1 = entries2) (hh : hashFn1 = hashFn2) :
    find_duplicate_candidates hashFn1 (scan_directory entries1).size_index =
      find_duplicate_candidates hashFn2 (scan_directory entries2).size_index := by
  subst he
  subst hh
  rfl

theorem claim_C9_witness :
    find_duplicate_candidates (fun _ => some "h")
        (scan_directory [⟨[], "a", some 3⟩, ⟨[], "b", some 3⟩]).size_index =
      find_duplicate_candidates (fun _ => some "h")
        (scan_directory [⟨[], "a", some 3⟩, ⟨[], "b", some 3⟩]).size_index :=
  claim_C9_deterministic [⟨[], "a", some 3⟩, ⟨[], "b", some 3⟩]
    [⟨[], "a", some 3⟩, ⟨[], "b", some 3⟩]
    (fun _ => some "h") (fun _ => some "h") rfl rfl

/-! ## Extension-key lemmas -/

theorem lastDot_drop : ∀ (cs : List Char) (i : Nat), lastDot cs = some i →
    ∃ t, cs.drop i = '.' :: t := by
  intro cs
  induction cs with
  | nil => intro i h; simp [lastDot] at h
  | cons c rest ih =>
    intro i h
    simp only [lastDot] at h
    cases hr : lastDot rest with
    | some j =>
      rw [hr] at h
      simp only [Option.some.injEq] at h
      subst h
      obtain ⟨t, ht⟩ := ih j hr
      exact ⟨t, by simpa using ht⟩
    | none =>
      rw [hr] at h
      by_cases hc : c = '.'
      · rw [if_pos hc] at h
        simp only [Option.some.injEq] at h
        subst h
        exact ⟨rest, by simpa using hc⟩
      · rw [if_neg hc] at h
        cases h

theorem pySuffix_shape (name : String) :
    pySuffix name = "" ∨ ∃ cs, (pySuffix name).data = '.' :: cs ∧ cs ≠ [] := by
  unfold pySuffix
  cases hl : lastDot name.data with
  | none => left; rfl
  | some i =>
    by_cases hcond : 0 < i ∧ i < name.data.length - 1
    · right
      dsimp only
      rw [if_pos hcond]
      obtain ⟨t, ht⟩ := lastDot_drop name.data i hl
      refine ⟨t, by simpa using ht, ?_⟩
      have hlen : (name.data.drop i).length = name.data.length - i :=
        List.length_drop i name.data
      rw [ht] at hlen
      intro hte
      subst hte
      simp only [List.length_cons, List.length_nil] at hlen
      omega
    · left
      dsimp only
      rw [if_neg hcond]

theorem toLower_dot : Char.toLower '.' = '.' := by decide

theorem pyLower_dot_cons (cs : List Char) :
    pyLower { data := '.' :: cs } = { data := '.' :: cs.map Char.toLower } := by
  simp [pyLower, toLower_dot]

/-- C5: the extension key is the lowercased final suffix of the file name
(`archive.tar.gz` maps to `.gz`); a file with no extension — including the
bare-dot edge case — maps to the sentinel `"<no_ext>"`, which differs from
the empty string and from every real extension key (every non-sentinel key
starts with a dot and has at least two characters, while the sentinel does
not start with a dot; no key is ever the empty string). -/
theorem claim_C5_extension_key :
    extKey "archive.tar.gz" = ".gz"
    ∧ extKey "README" = "<no_ext>"
    ∧ extKey "data." = "<no_ext>"
    ∧ "<no_ext>" ≠ ""
    ∧ (∀ name : String, extKey name ≠ "")
    ∧ (∀ name : String, pySuffix name ≠ "" →
        extKey name = pyLower (pySuffix name))
    ∧ (∀ name : String, extKey name = "<no_ext>"
        ∨ ((extKey name).data.head? = some '.'
            ∧ 2 ≤ (extKey name).data.length
            ∧ extKey name ≠ "<no_ext>")) := by
  refine ⟨by decide, by decide, by decide, by decide, ?_, ?_, ?_⟩
  · intro name h
    unfold extKey at h
    by_cases he : pyLower (pySuffix name) = ""
    · rw [if_pos he] at h
      exact absurd h (by decide)
    · rw [if_neg he] at h
      exact he h
  · intro name h
    rcases pySuffix_shape name with hs | ⟨cs, hcs, hne⟩
    · exact absurd hs h
    · have hdata : (pySuffix name) = { data := '.' :: cs } := by
        cases hp : pySuffix name
        simp only [hp] at hcs
        simp [hcs]
      have hlow : pyLower (pySuffix name) =
          { data := '.' :: cs.map Char.toLower } := by
        rw [hdata, pyLower_dot_cons]
      have hnz : pyLower (pySuffix name) ≠ "" := by
        rw [hlow]
        intro hcon
        have := congrArg String.data hcon
        simp at this
      unfold extKey
      rw [if_neg hnz]
  · intro name
    rcases pySuffix_shape name with hs | ⟨cs, hcs, hne⟩
    · left
      unfold extKey
      have : pyLower (pySuffix name) = "" := by
        rw [hs]; rfl
      rw [if_pos this]
    · right
      have hdata : (pySuffix name) = { data := '.' :: cs } := by
        cases hp : pySuffix name
        simp only [hp] at hcs
        simp [hcs]
      have hlow : pyLower (pySuffix name) =
          { data := '.' :: cs.map Char.toLower } := by
        rw [hdata, pyLower_dot_cons]
      have hnz : pyLower (pySuffix name) ≠ "" := by
        rw [hlow]
        intro hcon
        have := congrArg String.data hcon
        simp at this
      have hek : extKey name = { data := '.' :: cs.map Char.toLower } := by
        unfold extKey
        rw [if_neg hnz, hlow]
      refine ⟨?_, ?_, ?_⟩
      · rw [hek]
        rfl
      · rw [hek]
        simp only [List.length_cons, List.length_map]
        have : cs.length ≠ 0 := fun h0 => hne (List.eq_nil_of_length_eq_zero h0)
        omega
      · rw [hek]
        intro hcon
        have := congrArg String.data hcon
        simp only [List.cons.injEq] at this
        exact absurd this.1 (by decide)

/-! ## Duplicate-resolver lemmas -/

theorem foldl_append_eq {α β : Type} (g : α → List β) :
    ∀ (l : List α) (init : List β),
      l.foldl (fun acc x => acc ++ g x) init = init ++ l.flatMap g := by
  intro l
  induction l with
  | nil => intro init; simp
  | cons a t ih =>
    intro init
    rw [List.foldl_cons, ih]
    simp [List.flatMap_cons]

theorem fdc_eq_bind (hashFn : FPath → Option String)
    (si : List (Nat × List FPath)) :
    find_duplicate_candidates hashFn si =
      (candidateBuckets si).flatMap (fun sp => bucketGroups hashFn sp.2) := by
  unfold find_duplicate_candidates
  rw [foldl_append_eq]
  rfl

theorem hashedPaths_eq (si : List (Nat × List FPath)) :
    hashedPaths si = (candidateBuckets si).flatMap (fun sp => sp.2) := by
  unfold hashedPaths
  rw [foldl_append_eq]
  rfl

theorem hashBuckets_get (hashFn : FPath → Option String) :
    ∀ (paths : List FPath) (b : List (String × List FPath)) (h : String),
      alistGet (paths.foldl (hbStep hashFn) b) h [] =
        alistGet b h [] ++ paths.filter (fun p => decide (hashFn p = some h)) := by
  intro paths
  induction paths with
  | nil => intro b h; simp
  | cons p t ih =>
    intro b h
    rw [List.foldl_cons, ih]
    cases hp : hashFn p with
    | none =>
      have hstep : hbStep hashFn b p = b := by simp [hbStep, hp]
      rw [hstep]
      simp [List.filter_cons, hp]
    | some hv =>
      have hstep : hbStep hashFn b p = alistUpd b hv (fun l => l ++ [p]) [] := by
        simp [hbStep, hp]
      rw [hstep, alistGet_upd]
      by_cases hh : h = hv
      · subst hh
        rw [if_pos rfl]
        simp [List.filter_cons, hp]
      · rw [if_neg hh]
        have hvh : ¬ hashFn p = some h := by
          rw [hp]
          intro hcon
          exact hh (Option.some.inj hcon).symm
        simp [List.filter_cons, hvh]

theorem hashBuckets_keys_nodup (hashFn : FPath → Option String) :
    ∀ (paths : List FPath) (b : List (String × List FPath)),
      (alistKeys b).Nodup →
        (alistKeys (paths.foldl (hbStep hashFn) b)).Nodup := by
  intro paths
  induction paths with
  | nil => intro b hb; simpa using hb
  | cons p t ih =>
    intro b hb
    rw [List.foldl_cons]
    apply ih
    cases hp : hashFn p with
    | none => simpa [hbStep, hp] using hb
    | some hv =>
      have hstep : hbStep hashFn b p = alistUpd b hv (fun l => l ++ [p]) [] := by
        simp [hbStep, hp]
      rw [hstep]
      exact alistKeys_upd_nodup b hv _ _ hb

theorem hashBuckets_entry (hashFn : FPath → Option String) (paths : List FPath)
    (k : String) (l : List FPath) (hm : (k, l) ∈ hashBuckets hashFn paths) :
    l = paths.filter (fun p => decide (hashFn p = some k)) := by
  have hk := hashBuckets_keys_nodup hashFn paths [] (by simp [alistKeys])
  have hg := alistGet_of_mem (hashBuckets hashFn paths) k l [] hk hm
  rw [show hashBuckets hashFn paths = paths.foldl (hbStep hashFn) [] from rfl,
    hashBuckets_get hashFn paths [] k] at hg
  simpa using hg.symm

theorem hashBuckets_key_mem (hashFn : FPath → Option String) (paths : List FPath)
    (p : FPath) (h : String) (hp : p ∈ paths) (hh : hashFn p = some h) :
    h ∈ alistKeys (hashBuckets hashFn paths) := by
  by_contra hno
  have hget := alistGet_of_not_mem (hashBuckets hashFn paths) h [] hno
  rw [show hashBuckets hashFn paths = paths.foldl (hbStep hashFn) [] from rfl,
    hashBuckets_get hashFn paths [] h] at hget
  have h2 : ∀ a ∈ paths, ¬ hashFn a = some h := by
    simpa [alistGet] using hget
  exact h2 p hp hh

theorem hashBuckets_mem_paths (hashFn : FPath → Option String)
    (paths : List FPath) (k : String) (l : List FPath)
    (hm : (k, l) ∈ hashBuckets hashFn paths) :
    ∀ x ∈ l, x ∈ paths ∧ hashFn x = some k := by
  intro x hx
  rw [hashBuckets_entry hashFn paths k l hm] at hx
  have h2 := List.mem_filter.mp hx
  exact ⟨h2.1, of_decide_eq_true h2.2⟩

/-- Full characterization of an emitted duplicate group: it is the ≥2-sized
filter of one ≥2-sized size bucket by one digest value. -/
theorem mem_fdc (hashFn : FPath → Option String) (si : List (Nat × List FPath))
    (g : List FPath) (hg : g ∈ find_duplicate_candidates hashFn si) :
    ∃ s paths k, (s, paths) ∈ si ∧ 1 < paths.length ∧ 1 < g.length ∧
      g = paths.filter (fun x => decide (hashFn x = some k)) := by
  rw [fdc_eq_bind] at hg
  obtain ⟨sp, hsp, hgg⟩ := List.mem_flatMap.mp hg
  unfold bucketGroups at hgg
  obtain ⟨hb, hhb, hbg⟩ := List.mem_map.mp hgg
  have hfil := List.mem_filter.mp hhb
  have hcand := List.mem_filter.mp hsp
  refine ⟨sp.1, sp.2, hb.1, ?_, ?_, ?_, ?_⟩
  · exact hcand.1
  · exact of_decide_eq_true hcand.2
  · rw [← hbg]
    exact of_decide_eq_true hfil.2
  · rw [← hbg]
    exact hashBuckets_entry hashFn sp.2 hb.1 hb.2 hfil.1

/-- All paths of a size index, across all buckets. -/
def allPaths (si : List (Nat × List FPath)) : List FPath :=
  si.flatMap (fun sp => sp.2)

theorem bucket_nodup (si : List (Nat × List FPath)) (s : Nat)
    (paths : List FPath) (hwf : (allPaths si).Nodup) (hm : (s, paths) ∈ si) :
    paths.Nodup := by
  induction si with
  | nil => cases hm
  | cons a t ih =>
    have hwf2 : (a.2 ++ allPaths t).Nodup := by
      simpa [allPaths, List.flatMap_cons] using hwf
    obtain ⟨h1, h2, h3⟩ := List.nodup_append.mp hwf2
    rcases List.mem_cons.mp hm with heq | hmem
    · rw [← heq] at h1
      exact h1
    · exact ih h2 hmem

theorem bucket_unique (si : List (Nat × List FPath)) (s : Nat)
    (paths : List FPath) (p : FPath) (hwf : (allPaths si).Nodup)
    (hm : (s, paths) ∈ si) (hp : p ∈ paths) :
    ∀ sp ∈ si, p ∈ sp.2 → sp = (s, paths) := by
  induction si with
  | nil => intro sp h; cases h
  | cons a t ih =>
    have hwf2 : (a.2 ++ allPaths t).Nodup := by
      simpa [allPaths, List.flatMap_cons] using hwf
    obtain ⟨h1, h2, h3⟩ := List.nodup_append.mp hwf2
    intro sp hsp hpsp
    rcases List.mem_cons.mp hm with heq | hmem
    · rcases List.mem_cons.mp hsp with heq2 | hsp2
      · rw [heq2, ← heq]
      · exfalso
        have hpa : p ∈ a.2 := by rw [← heq]; exact hp
        have hpt : p ∈ allPaths t :=
          List.mem_flatMap.mpr ⟨sp, hsp2, hpsp⟩
        exact h3 hpa hpt
    · rcases List.mem_cons.mp hsp with heq2 | hsp2
      · exfalso
        have hpt : p ∈ allPaths t :=
          List.mem_flatMap.mpr ⟨(s, paths), hmem, hp⟩
        have hpa : p ∈ a.2 := by rw [← heq2]; exact hpsp
        exact h3 hpa hpt
      · exact ih h2 hmem sp hsp2 hpsp

theorem countP_bucket (si : List (Nat × List FPath)) (s : Nat)
    (paths : List FPath) (p : FPath) (hwf : (allPaths si).Nodup)
    (hm : (s, paths) ∈ si) (hp : p ∈ paths) :
    si.countP (fun sp => decide (p ∈ sp.2)) = 1 := by
  induction si with
  | nil => cases hm
  | cons a t ih =>
    have hwf2 : (a.2 ++ allPaths t).Nodup := by
      simpa [allPaths, List.flatMap_cons] using hwf
    obtain ⟨h1, h2, h3⟩ := List.nodup_append.mp hwf2
    rcases List.mem_cons.mp hm with heq | hmem
    · have hpa : p ∈ a.2 := by rw [← heq]; exact hp
      have hz : t.countP (fun sp => decide (p ∈ sp.2)) = 0 := by
        apply List.countP_eq_zero.mpr
        intro sp hsp
        simp only [decide_eq_true_eq]
        intro hpsp
        exact h3 hpa (List.mem_flatMap.mpr ⟨sp, hsp, hpsp⟩)
      rw [List.countP_cons, hz]
      simp [hpa]
    · have hz : ¬ p ∈ a.2 := fun hpa =>
        h3 hpa (List.mem_flatMap.mpr ⟨(s, paths), hmem, hp⟩)
      rw [List.countP_cons]
      simp [hz, ih h2 hmem]

theorem countP_flatMap {α β : Type} (P : β → Bool) (f : α → List β) :
    ∀ l : List α, (l.flatMap f).countP P = (l.map (fun x => (f x).countP P)).sum := by
  intro l
  induction l with
  | nil => simp
  | cons a t ih => simp [List.flatMap_cons, List.countP_append, ih]

theorem sum_single {α : Type} [DecidableEq α] (f : α → Nat) (x0 : α) :
    ∀ l : List α, l.countP (fun x => decide (x = x0)) = 1 →
      (∀ x ∈ l, x ≠ x0 → f x = 0) → (l.map f).sum = f x0 := by
  intro l
  induction l with
  | nil => intro h; simp at h
  | cons a t ih =>
    intro hc hz
    rw [List.countP_cons] at hc
    by_cases ha : a = x0
    · subst ha
      rw [if_pos (by simp : decide (a = a) = true)] at hc
      have ht : t.countP (fun x => decide (x = a)) = 0 := by omega
      have hall : ∀ x ∈ t, f x = 0 := by
        intro x hx
        rcases eq_or_ne x a with rfl | hne
        · exfalso
          have := List.countP_eq_zero.mp ht x hx
          simp at this
        · exact hz x (List.mem_cons_of_mem _ hx) hne
      have hsum : (t.map f).sum = 0 := by
        apply List.sum_eq_zero
        intro y hy
        obtain ⟨x, hx, rfl⟩ := List.mem_map.mp hy
        exact hall x hx
      simp [hsum]
    · rw [if_neg (by simp [ha] : ¬ decide (a = x0) = true)] at hc
      have hfa : f a = 0 := hz a (List.mem_cons_self a t) ha
      have hone := ih (by omega) (fun x hx hne => hz x (List.mem_cons_of_mem _ hx) hne)
      simp [hfa, hone]

theorem countP_eq_one_of_nodup_mem {α : Type} [DecidableEq α] (x0 : α) :
    ∀ l : List α, l.Nodup → x0 ∈ l →
      l.countP (fun x => decide (x = x0)) = 1 := by
  intro l
  induction l with
  | nil => intro _ h; cases h
  | cons a t ih =>
    intro hnd hm
    obtain ⟨hna, hnt⟩ := List.nodup_cons.mp hnd
    rw [List.countP_cons]
    rcases List.mem_cons.mp hm with rfl | hmt
    · have hz : t.countP (fun x => decide (x = x0)) = 0 := by
        apply List.countP_eq_zero.mpr
        intro x hx
        simp only [decide_eq_true_eq]
        intro hxe
        exact hna (hxe ▸ hx)
      simp [hz]
    · have hax : ¬ a = x0 := fun e => hna (e ▸ hmt)
      simp [hax, ih hnt hmt]

theorem one_lt_length_of_two_mem {α : Type} (l : List α) (p q : α)
    (hp : p ∈ l) (hq : q ∈ l) (hne : p ≠ q) : 1 < l.length := by
  cases l with
  | nil => cases hp
  | cons a t =>
    cases t with
    | nil =>
      simp only [List.mem_singleton] at hp hq
      exact absurd (hp.trans hq.symm) hne
    | cons b t2 =>
      simp only [List.length_cons]
      omega

theorem bucketGroups_mem_paths (hashFn : FPath → Option String)
    (paths : List FPath) (g : List FPath)
    (hg : g ∈ bucketGroups hashFn paths) : ∀ y ∈ g, y ∈ paths := by
  unfold bucketGroups at hg
  obtain ⟨hb, hhb, hbg⟩ := List.mem_map.mp hg
  have hfil := List.mem_filter.mp hhb
  intro y hy
  rw [← hbg] at hy
  exact (hashBuckets_mem_paths hashFn paths hb.1 hb.2 hfil.1 y hy).1

theorem countP_bucketGroups (hashFn : FPath → Option String)
    (paths : List FPath) (p q : FPath) (h : String) (hp : p ∈ paths)
    (hq : q ∈ paths) (hpq : p ≠ q) (hhp : hashFn p = some h)
    (hhq : hashFn q = some h) :
    (bucketGroups hashFn paths).countP
      (fun g => decide (p ∈ g) && decide (q ∈ g)) = 1 := by
  unfold bucketGroups
  rw [List.countP_map, List.countP_filter]
  have hcongr : ∀ hb ∈ hashBuckets hashFn paths,
      (((fun g => decide (p ∈ g) && decide (q ∈ g)) ∘ (fun hb => hb.2)) hb &&
          decide (hb.2.length > 1)) = true ↔
        (decide (hb.1 = h)) = true := by
    intro hb hmem
    have hent := hashBuckets_entry hashFn paths hb.1 hb.2 hmem
    constructor
    · intro hx
      simp only [Function.comp, Bool.and_eq_true, decide_eq_true_eq] at hx
      obtain ⟨⟨hpm, _⟩, _⟩ := hx
      rw [hent] at hpm
      have h2 := List.mem_filter.mp hpm
      have h3 := of_decide_eq_true h2.2
      rw [hhp] at h3
      simp only [decide_eq_true_eq]
      exact (Option.some.inj h3).symm
    · intro hx
      have hbh : hb.1 = h := of_decide_eq_true hx
      simp only [Function.comp, Bool.and_eq_true, decide_eq_true_eq]
      have hpm : p ∈ hb.2 := by
        rw [hent, hbh]
        exact List.mem_filter.mpr ⟨hp, by simp [hhp]⟩
      have hqm : q ∈ hb.2 := by
        rw [hent, hbh]
        exact List.mem_filter.mpr ⟨hq, by simp [hhq]⟩
      exact ⟨⟨hpm, hqm⟩, one_lt_length_of_two_mem hb.2 p q hpm hqm hpq⟩
  rw [List.countP_congr hcongr]
  have hkeys := hashBuckets_keys_nodup hashFn paths [] (by simp [alistKeys])
  have hmem := hashBuckets_key_mem hashFn paths p h hp hhp
  have hone := countP_eq_one_of_nodup_mem h
    (alistKeys (hashBuckets hashFn paths)) hkeys hmem
  rw [alistKeys, List.countP_map] at hone
  exact hone

/-- C2: two files in one size bucket with the same digest (as byte-identical
contents have) land together in exactly one duplicate group; two files whose
digests differ never share a group; and every emitted group has at least two
members. -/
theorem claim_C2_duplicate_grouping (hashFn : FPath → Option String)
    (si : List (Nat × List FPath)) :
    (∀ (s : Nat) (paths : List FPath) (p q : FPath) (h : String),
        (allPaths si).Nodup → (s, paths) ∈ si →
        p ∈ paths → q ∈ paths → p ≠ q →
        hashFn p = some h → hashFn q = some h →
        (find_duplicate_candidates hashFn si).countP
          (fun g => decide (p ∈ g) && decide (q ∈ g)) = 1)
    ∧ (∀ (p q : FPath) (h1 h2 : String) (g : List FPath),
        hashFn p = some h1 → hashFn q = some h2 → h1 ≠ h2 →
        g ∈ find_duplicate_candidates hashFn si → ¬ (p ∈ g ∧ q ∈ g))
    ∧ (∀ g ∈ find_duplicate_candidates hashFn si, 2 ≤ g.length) := by
  refine ⟨?_, ?_, ?_⟩
  · intro s paths p q h hwf hm hp hq hpq hhp hhq
    have hlen : 1 < paths.length := one_lt_length_of_two_mem paths p q hp hq hpq
    rw [fdc_eq_bind, countP_flatMap]
    have hcnt1 : si.countP (fun x => decide (x = (s, paths))) = 1 := by
      rw [List.countP_congr (p := fun x => decide (x = (s, paths)))
        (q := fun sp => decide (p ∈ sp.2)) ?_]
      · exact countP_bucket si s paths p hwf hm hp
      · intro x hx
        simp only [decide_eq_true_eq]
        constructor
        · rintro rfl
          exact hp
        · intro hpx
          exact bucket_unique si s paths p hwf hm hp x hx hpx
    have hcnt2 : (candidateBuckets si).countP
        (fun x => decide (x = (s, paths))) = 1 := by
      unfold candidateBuckets
      rw [List.countP_filter]
      rw [List.countP_congr ?_]
      · exact hcnt1
      · intro x hx
        simp only [Bool.and_eq_true, decide_eq_true_eq]
        constructor
        · intro hc
          exact hc.1
        · rintro rfl
          exact ⟨rfl, hlen⟩
    have hzero : ∀ x ∈ candidateBuckets si, x ≠ (s, paths) →
        (bucketGroups hashFn x.2).countP
          (fun g => decide (p ∈ g) && decide (q ∈ g)) = 0 := by
      intro x hx hne
      apply List.countP_eq_zero.mpr
      intro g hgm
      simp only [Bool.and_eq_true, decide_eq_true_eq]
      rintro ⟨hpg, _⟩
      have hpx : p ∈ x.2 := bucketGroups_mem_paths hashFn x.2 g hgm p hpg
      have hxsi : x ∈ si := (List.mem_filter.mp hx).1
      exact hne (bucket_unique si s paths p hwf hm hp x hxsi hpx)
    have hmain := sum_single
      (fun x => (bucketGroups hashFn x.2).countP
        (fun g => decide (p ∈ g) && decide (q ∈ g)))
      (s, paths) (candidateBuckets si) hcnt2 hzero
    rw [hmain]
    exact countP_bucketGroups hashFn paths p q h hp hq hpq hhp hhq
  · intro p q h1 h2 g hhp hhq hne hg hmemb
    obtain ⟨s, paths, k, _, _, _, hfil⟩ := mem_fdc hashFn si g hg
    have hpk : hashFn p = some k := by
      have := List.mem_filter.mp (hfil ▸ hmemb.1)
      exact of_decide_eq_true this.2
    have hqk : hashFn q = some k := by
      have := List.mem_filter.mp (hfil ▸ hmemb.2)
      exact of_decide_eq_true this.2
    rw [hhp] at hpk
    rw [hhq] at hqk
    exact hne ((Option.some.inj hpk).trans (Option.some.inj hqk).symm)
  · intro g hg
    obtain ⟨_, _, _, _, _, hlen, _⟩ := mem_fdc hashFn si g hg
    omega

/-- C6: a file that is the sole occupant of its size bucket is never passed
to the Hasher by `find_duplicate_candidates` and never appears in any emitted
duplicate group. -/
theorem claim_C6_singleton_bucket (hashFn : FPath → Option String)
    (si : List (Nat × List FPath)) (s : Nat) (p : FPath)
    (hwf : (allPaths si).Nodup) (hb : (s, [p]) ∈ si) :
    p ∉ hashedPaths si
    ∧ ∀ g ∈ find_duplicate_candidates hashFn si, p ∉ g := by
  constructor
  · intro hmem
    rw [hashedPaths_eq] at hmem
    obtain ⟨sp, hsp, hpsp⟩ := List.mem_flatMap.mp hmem
    have hxsi : sp ∈ si := (List.mem_filter.mp hsp).1
    have hlen : 1 < sp.2.length := of_decide_eq_true (List.mem_filter.mp hsp).2
    have heq := bucket_unique si s [p] p hwf hb (List.mem_singleton_self p)
      sp hxsi hpsp
    rw [heq] at hlen
    simp at hlen
  · intro g hg hpg
    obtain ⟨s2, paths2, k, hmem2, hlen2, _, hfil⟩ := mem_fdc hashFn si g hg
    have hpp : p ∈ paths2 := (List.mem_filter.mp (hfil ▸ hpg)).1
    have heq := bucket_unique si s [p] p hwf hb (List.mem_singleton_self p)
      (s2, paths2) hmem2 hpp
    have hpaths : paths2 = [p] := congrArg Prod.snd heq
    rw [hpaths] at hlen2
    simp at hlen2

theorem hashBuckets_erase_none (hashFn : FPath → Option String) (p : FPath)
    (hp : hashFn p = none) :
    ∀ (paths : List FPath) (b : List (String × List FPath)),
      paths.foldl (hbStep hashFn) b =
        (paths.erase p).foldl (hbStep hashFn) b := by
  intro paths
  induction paths with
  | nil => intro b; rfl
  | cons a t ih =>
    intro b
    by_cases ha : a = p
    · subst ha
      rw [List.erase_cons_head, List.foldl_cons]
      have hstep : hbStep hashFn b a = b := by simp [hbStep, hp]
      rw [hstep]
    · have hba : ¬ (a == p) = true := by simpa using ha
      rw [List.erase_cons_tail hba, List.foldl_cons, List.foldl_cons, ih]

theorem key_unique (si : List (Nat × List FPath)) (s : Nat)
    (paths : List FPath) (hk : (alistKeys si).Nodup) (hm : (s, paths) ∈ si) :
    ∀ sp ∈ si, sp.1 = s → sp = (s, paths) := by
  intro sp hsp hsps
  have h1 := alistGet_of_mem si s paths [] hk hm
  have hsp2 : (s, sp.2) ∈ si := by rw [← hsps]; exact hsp
  have h2 := alistGet_of_mem si s sp.2 [] hk hsp2
  have hv : sp.2 = paths := by rw [← h1, ← h2]
  calc sp = (sp.1, sp.2) := rfl
  _ = (s, paths) := by rw [hsps, hv]

theorem hashBuckets_value_le (hashFn : FPath → Option String)
    (paths : List FPath) (k : String) (l : List FPath)
    (hm : (k, l) ∈ hashBuckets hashFn paths) : l.length ≤ paths.length := by
  rw [hashBuckets_entry hashFn paths k l hm]
  exact List.length_filter_le _ _

theorem bucketGroups_of_short (hashFn : FPath → Option String)
    (paths : List FPath) (h : paths.length ≤ 1) :
    bucketGroups hashFn paths = [] := by
  unfold bucketGroups
  have hfil : (hashBuckets hashFn paths).filter
      (fun hb => hb.2.length > 1) = [] := by
    apply List.filter_eq_nil_iff.mpr
    intro hb hmem
    have hle := hashBuckets_value_le hashFn paths hb.1 hb.2 hmem
    simp only [gt_iff_lt, decide_eq_true_eq]
    omega
  rw [hfil, List.map_nil]

theorem flatMap_congr_mem {α β : Type} (f g : α → List β) :
    ∀ l : List α, (∀ x ∈ l, f x = g x) → l.flatMap f = l.flatMap g := by
  intro l
  induction l with
  | nil => intro _; rfl
  | cons a t ih =>
    intro h
    rw [List.flatMap_cons, List.flatMap_cons, h a (List.mem_cons_self a t),
      ih (fun x hx => h x (List.mem_cons_of_mem a hx))]

theorem flatMap_filter_contribution (hashFn : FPath → Option String) :
    ∀ si : List (Nat × List FPath),
      (candidateBuckets si).flatMap (fun sp => bucketGroups hashFn sp.2) =
        si.flatMap
          (fun sp => if 1 < sp.2.length then bucketGroups hashFn sp.2 else []) := by
  intro si
  induction si with
  | nil => rfl
  | cons a t ih =>
    unfold candidateBuckets
    rw [List.filter_cons]
    by_cases ha : 1 < a.2.length
    · rw [if_pos (by simpa using ha), List.flatMap_cons, List.flatMap_cons,
        if_pos ha]
      unfold candidateBuckets at ih
      rw [ih]
    · rw [if_neg (by simpa using ha), List.flatMap_cons, if_neg ha]
      unfold candidateBuckets at ih
      rw [ih]
      rfl

/-- C7: when hashing one path of a candidate bucket fails, that path is
dropped: the remaining paths of its bucket are still passed to the Hasher,
and the emitted groups are exactly those of the index with the failed path
removed from its bucket. -/
theorem claim_C7_hash_failure (hashFn : FPath → Option String)
    (si : List (Nat × List FPath)) (s : Nat) (paths : List FPath) (p : FPath)
    (hkeys : (alistKeys si).Nodup) (hm : (s, paths) ∈ si) (hp : p ∈ paths)
    (hf : hashFn p = none) :
    (∀ q ∈ paths, q ≠ p → q ∈ hashedPaths si)
    ∧ find_duplicate_candidates hashFn si =
        find_duplicate_candidates hashFn
          (si.map (fun sp => if sp.1 = s then (sp.1, sp.2.erase p) else sp)) := by
  constructor
  · intro q hq hne
    rw [hashedPaths_eq]
    apply List.mem_flatMap.mpr
    refine ⟨(s, paths), ?_, hq⟩
    apply List.mem_filter.mpr
    refine ⟨hm, ?_⟩
    simp only [gt_iff_lt, decide_eq_true_eq]
    exact one_lt_length_of_two_mem paths q p hq hp hne
  · rw [fdc_eq_bind, fdc_eq_bind, flatMap_filter_contribution,
      flatMap_filter_contribution, List.flatMap_map]
    apply flatMap_congr_mem
    intro sp hsp
    by_cases hs : sp.1 = s
    · have heq := key_unique si s paths hkeys hm sp hsp hs
      rw [heq]
      rw [if_pos rfl]
      have hBG : bucketGroups hashFn paths =
          bucketGroups hashFn (paths.erase p) := by
        unfold bucketGroups hashBuckets
        rw [hashBuckets_erase_none hashFn p hf paths]
      have hlen : (paths.erase p).length = paths.length - 1 :=
        List.length_erase_of_mem hp
      by_cases h1 : 1 < paths.length
      · by_cases h2 : 1 < (paths.erase p).length
        · rw [if_pos h1, if_pos h2, hBG]
        · rw [if_pos h1, if_neg h2, hBG]
          exact bucketGroups_of_short hashFn (paths.erase p) (by omega)
      · have h2 : ¬ 1 < (paths.erase p).length := by omega
        rw [if_neg h1, if_neg h2]
    · rw [if_neg hs]

theorem values_flatten_nodup (hashFn : FPath → Option String) :
    ∀ m : List (String × List FPath), (alistKeys m).Nodup →
      (∀ kl ∈ m, (∀ x ∈ kl.2, hashFn x = some kl.1) ∧ kl.2.Nodup) →
      ((m.map (fun kl => kl.2)).flatten).Nodup := by
  intro m
  induction m with
  | nil => intro _ _; simp
  | cons a t ih =>
    intro hkeys hval
    rw [alistKeys_cons] at hkeys
    obtain ⟨hka, hkt⟩ := List.nodup_cons.mp hkeys
    rw [List.map_cons, List.flatten_cons, List.nodup_append]
    refine ⟨(hval a (List.mem_cons_self a t)).2,
      ih hkt (fun kl hkl => hval kl (List.mem_cons_of_mem a hkl)), ?_⟩
    intro x hxa hxt
    have hha : hashFn x = some a.1 := (hval a (List.mem_cons_self a t)).1 x hxa
    obtain ⟨gl, hgl, hxg⟩ := List.mem_flatten.mp hxt
    obtain ⟨kl, hkl, hglkl⟩ := List.mem_map.mp hgl
    have hhk : hashFn x = some kl.1 :=
      (hval kl (List.mem_cons_of_mem a hkl)).1 x (hglkl ▸ hxg)
    have : a.1 = kl.1 := Option.some.inj ((hha.symm).trans hhk)
    exact hka (this ▸ List.mem_map_of_mem Prod.fst hkl)

theorem bucketGroups_flatten_nodup (hashFn : FPath → Option String)
    (paths : List FPath) (hnd : paths.Nodup) :
    ((bucketGroups hashFn paths).flatten).Nodup := by
  unfold bucketGroups
  apply values_flatten_nodup hashFn
  · have hsub : ((hashBuckets hashFn paths).filter
        (fun hb => hb.2.length > 1)).Sublist (hashBuckets hashFn paths) :=
      List.filter_sublist _
    exact List.Nodup.sublist (List.Sublist.map Prod.fst hsub)
      (hashBuckets_keys_nodup hashFn paths [] (by simp [alistKeys]))
  · intro kl hkl
    have hin : kl ∈ hashBuckets hashFn paths := (List.mem_filter.mp hkl).1
    constructor
    · intro x hx
      exact (hashBuckets_mem_paths hashFn paths kl.1 kl.2 hin x hx).2
    · rw [hashBuckets_entry hashFn paths kl.1 kl.2 hin]
      exact List.Nodup.filter _ hnd

theorem allPaths_filter_sublist (c : Nat × List FPath → Bool)
    (si : List (Nat × List FPath)) :
    (allPaths (si.filter c)).Sublist (allPaths si) := by
  induction si with
  | nil => simp [allPaths]
  | cons a t ih =>
    rw [List.filter_cons]
    by_cases hc : c a = true
    · rw [if_pos hc]
      have h2 : allPaths (a :: t.filter c) = a.2 ++ allPaths (t.filter c) := by
        simp [allPaths, List.flatMap_cons]
      have h3 : allPaths (a :: t) = a.2 ++ allPaths t := by
        simp [allPaths, List.flatMap_cons]
      rw [h2, h3]
      exact List.Sublist.append_left ih a.2
    · rw [if_neg hc]
      have h3 : allPaths (a :: t) = a.2 ++ allPaths t := by
        simp [allPaths, List.flatMap_cons]
      rw [h3]
      exact List.Sublist.trans ih (List.sublist_append_right a.2 (allPaths t))

theorem fdc_flatten_nodup (hashFn : FPath → Option String) :
    ∀ l : List (Nat × List FPath), (allPaths l).Nodup →
      ((l.flatMap (fun sp => bucketGroups hashFn sp.2)).flatten).Nodup := by
  intro l
  induction l with
  | nil => intro _; simp
  | cons a t ih =>
    intro hwf
    have hwf2 : (a.2 ++ allPaths t).Nodup := by
      simpa [allPaths, List.flatMap_cons] using hwf
    obtain ⟨h1, h2, h3⟩ := List.nodup_append.mp hwf2
    rw [List.flatMap_cons, List.flatten_append, List.nodup_append]
    refine ⟨bucketGroups_flatten_nodup hashFn a.2 h1, ih h2, ?_⟩
    intro x hxa hxt
    have hxa2 : x ∈ a.2 := by
      obtain ⟨gl, hgl, hxg⟩ := List.mem_flatten.mp hxa
      exact bucketGroups_mem_paths hashFn a.2 gl hgl x hxg
    have hxt2 : x ∈ allPaths t := by
      obtain ⟨gl, hgl, hxg⟩ := List.mem_flatten.mp hxt
      obtain ⟨sp, hsp, hglsp⟩ := List.mem_flatMap.mp hgl
      exact List.mem_flatMap.mpr
        ⟨sp, hsp, bucketGroups_mem_paths hashFn sp.2 gl hglsp x hxg⟩
    exact h3 hxa2 hxt2

/-- C10: when no path occurs twice across the size buckets, the emitted
duplicate groups are pairwise disjoint — no path appears in more than one
group (nor twice in one group) — and each group draws all its members from a
single size bucket and a single digest value. -/
theorem claim_C10_groups_disjoint (hashFn : FPath → Option String)
    (si : List (Nat × List FPath)) (hwf : (allPaths si).Nodup) :
    ((find_duplicate_candidates hashFn si).flatten).Nodup
    ∧ ∀ g ∈ find_duplicate_candidates hashFn si,
        ∃ (s : Nat) (paths : List FPath) (k : String),
          (s, paths) ∈ si ∧ (∀ x ∈ g, x ∈ paths)
            ∧ (∀ x ∈ g, hashFn x = some k) := by
  constructor
  · rw [fdc_eq_bind]
    apply fdc_flatten_nodup hashFn (candidateBuckets si)
    exact List.Nodup.sublist
      (allPaths_filter_sublist (fun sp => sp.2.length > 1) si) hwf
  · intro g hg
    obtain ⟨s, paths, k, hmem, _, _, hfil⟩ := mem_fdc hashFn si g hg
    refine ⟨s, paths, k, hmem, ?_, ?_⟩
    · intro x hx
      rw [hfil] at hx
      exact (List.mem_filter.mp hx).1
    · intro x hx
      rw [hfil] at hx
      exact of_decide_eq_true (List.mem_filter.mp hx).2

/-! ## Extension-sum invariants (C3) -/

/-- Sum of per-extension counts over an extension map. -/
def extSumCount (m : List (String × ExtStats)) : Nat :=
  (m.map (fun kv => kv.2.count)).sum

/-- Sum of per-extension sizes over an extension map. -/
def extSumSize (m : List (String × ExtStats)) : Nat :=
  (m.map (fun kv => kv.2.size)).sum

theorem extSumCount_cons (a : String × ExtStats) (t : List (String × ExtStats)) :
    extSumCount (a :: t) = a.2.count + extSumCount t := by
  simp [extSumCount]

theorem extSumSize_cons (a : String × ExtStats) (t : List (String × ExtStats)) :
    extSumSize (a :: t) = a.2.size + extSumSize t := by
  simp [extSumSize]

theorem bumpExt_sumCount (k : String) (sz : Nat) :
    ∀ m : List (String × ExtStats),
      extSumCount (bumpExt m k sz) = extSumCount m + 1 := by
  intro m
  induction m with
  | nil => rfl
  | cons a t ih =>
    obtain ⟨ka, va⟩ := a
    by_cases hk : k = ka
    · simp only [bumpExt, alistUpd, if_pos hk]
      rw [extSumCount_cons, extSumCount_cons]
      dsimp only
      omega
    · simp only [bumpExt, alistUpd, if_neg hk]
      rw [extSumCount_cons, extSumCount_cons]
      unfold bumpExt at ih
      rw [ih]
      omega

theorem bumpExt_sumSize (k : String) (sz : Nat) :
    ∀ m : List (String × ExtStats),
      extSumSize (bumpExt m k sz) = extSumSize m + sz := by
  intro m
  induction m with
  | nil => rfl
  | cons a t ih =>
    obtain ⟨ka, va⟩ := a
    by_cases hk : k = ka
    · simp only [bumpExt, alistUpd, if_pos hk]
      rw [extSumSize_cons, extSumSize_cons]
      dsimp only
      omega
    · simp only [bumpExt, alistUpd, if_neg hk]
      rw [extSumSize_cons, extSumSize_cons]
      unfold bumpExt at ih
      rw [ih]
      omega

theorem alistUpd_forall {K V : Type} [DecidableEq K] (P : V → Prop)
    (f : V → V) (v0 : V) (k : K) :
    ∀ m : List (K × V), (∀ kv ∈ m, P kv.2) → (∀ v, P v → P (f v)) →
      P (f v0) → ∀ kv ∈ alistUpd m k f v0, P kv.2 := by
  intro m
  induction m with
  | nil =>
    intro _ _ h0 kv hkv
    simp only [alistUpd, List.mem_singleton] at hkv
    rw [hkv]
    exact h0
  | cons a t ih =>
    intro hm hf h0 kv hkv
    obtain ⟨ka, va⟩ := a
    by_cases hk : k = ka
    · simp only [alistUpd, if_pos hk] at hkv
      rcases List.mem_cons.mp hkv with rfl | hkv2
      · exact hf va (hm (ka, va) (List.mem_cons_self _ _))
      · exact hm kv (List.mem_cons_of_mem _ hkv2)
    · simp only [alistUpd, if_neg hk] at hkv
      rcases List.mem_cons.mp hkv with rfl | hkv2
      · exact hm (ka, va) (List.mem_cons_self _ _)
      · exact ih (fun kv2 h => hm kv2 (List.mem_cons_of_mem _ h)) hf h0 kv hkv2

/-- The per-directory balance invariant: the extension breakdown sums to the
directory's own counters. -/
def DirBalanced (ds : DirStats) : Prop :=
  extSumCount ds.ext = ds.count ∧ extSumSize ds.ext = ds.size

theorem DirBalanced_bump (sz : Nat) (ek : String) (ds : DirStats) :
    DirBalanced ds → DirBalanced (bumpDir sz ek ds) := by
  rintro ⟨h1, h2⟩
  constructor
  · show extSumCount (bumpExt ds.ext ek sz) = ds.count + 1
    rw [bumpExt_sumCount, h1]
  · show extSumSize (bumpExt ds.ext ek sz) = ds.size + sz
    rw [bumpExt_sumSize, h2]

theorem foldAncestors_forall (sz : Nat) (ek : String) :
    ∀ (anc : List (List String)) (m : List (List String × DirStats)),
      (∀ kv ∈ m, DirBalanced kv.2) →
      ∀ kv ∈ anc.foldl
        (fun m1 a => alistUpd m1 a (bumpDir sz ek) dirDefault) m,
          DirBalanced kv.2 := by
  intro anc
  induction anc with
  | nil => intro m hm; exact hm
  | cons a t ih =>
    intro m hm
    rw [List.foldl_cons]
    exact ih _ (alistUpd_forall DirBalanced (bumpDir sz ek) dirDefault a m hm
      (DirBalanced_bump sz ek) (DirBalanced_bump sz ek dirDefault ⟨rfl, rfl⟩))

/-- The whole-scan balance invariant. -/
def ScanBalanced (st : ScanResult) : Prop :=
  extSumCount st.ext_stats = st.total_files
  ∧ extSumSize st.ext_stats = st.total_size
  ∧ ∀ kv ∈ st.dir_stats, DirBalanced kv.2

theorem scanStep_balanced (st : ScanResult) (e : FileEntry) :
    ScanBalanced st → ScanBalanced (scanStep st e) := by
  rintro ⟨h1, h2, h3⟩
  cases he : e.stat with
  | none =>
    have hs : scanStep st e = st := by simp [scanStep, he]
    rw [hs]
    exact ⟨h1, h2, h3⟩
  | some sz =>
    refine ⟨?_, ?_, ?_⟩
    · have hs : (scanStep st e).ext_stats =
          bumpExt st.ext_stats (extKey e.name) sz := by
        simp [scanStep, he]
      have ht : (scanStep st e).total_files = st.total_files + 1 := by
        simp [scanStep, he]
      rw [hs, ht, bumpExt_sumCount, h1]
    · have hs : (scanStep st e).ext_stats =
          bumpExt st.ext_stats (extKey e.name) sz := by
        simp [scanStep, he]
      have ht : (scanStep st e).total_size = st.total_size + sz := by
        simp [scanStep, he]
      rw [hs, ht, bumpExt_sumSize, h2]
    · have hs : (scanStep st e).dir_stats = (ancestors e.dir).foldl
          (fun m anc => alistUpd m anc (bumpDir sz (extKey e.name)) dirDefault)
          st.dir_stats := by
        simp [scanStep, he]
      rw [hs]
      exact foldAncestors_forall sz (extKey e.name) (ancestors e.dir)
        st.dir_stats h3

theorem foldl_balanced :
    ∀ (l : List FileEntry) (st : ScanResult),
      ScanBalanced st → ScanBalanced (l.foldl scanStep st) := by
  intro l
  induction l with
  | nil => intro st h; exact h
  | cons e t ih =>
    intro st h
    rw [List.foldl_cons]
    exact ih _ (scanStep_balanced st e h)

/-- C3: in every scope — the global extension stats and each directory's
per-extension map — the per-extension counts sum to the scope's total file
count and the per-extension sizes sum to the scope's total size. -/
theorem claim_C3_extension_sums (entries : List FileEntry) :
    extSumCount (scan_directory entries).ext_stats =
        (scan_directory entries).total_files
    ∧ extSumSize (scan_directory entries).ext_stats =
        (scan_directory entries).total_size
    ∧ ∀ kv ∈ (scan_directory entries).dir_stats,
        extSumCount kv.2.ext = kv.2.count ∧ extSumSize kv.2.ext = kv.2.size := by
  have h := foldl_balanced entries emptyScan ⟨rfl, rfl, fun kv hkv => by cases hkv⟩
  exact ⟨h.1, h.2.1, h.2.2⟩

/-! ## Concrete demonstration inputs for the witnesses -/

/-- A concrete Hasher oracle: `a` and `b` share a digest, `c` differs,
`d` is unreadable. -/
def demoHash : FPath → Option String := fun p =>
  if p.name = "a" then some "h1"
  else if p.name = "b" then some "h1"
  else if p.name = "c" then some "h2"
  else none

/-- A size index with one three-file bucket and one singleton bucket. -/
def demoIndex : List (Nat × List FPath) :=
  [(100, [⟨[], "a"⟩, ⟨[], "b"⟩, ⟨[], "c"⟩]), (7, [⟨[], "d"⟩])]

/-- A size index whose first bucket is a singleton. -/
def demoIndex2 : List (Nat × List FPath) :=
  [(5, [⟨[], "c"⟩]), (100, [⟨[], "a"⟩, ⟨[], "b"⟩])]

/-- A size index with an unreadable path in its only bucket. -/
def demoIndex3 : List (Nat × List FPath) :=
  [(100, [⟨[], "a"⟩, ⟨[], "b"⟩, ⟨[], "d"⟩])]

theorem claim_C2_witness :
    ((allPaths demoIndex).Nodup
      ∧ (100, [FPath.mk [] "a", FPath.mk [] "b", FPath.mk [] "c"]) ∈ demoIndex
      ∧ FPath.mk [] "a" ≠ FPath.mk [] "b"
      ∧ demoHash (FPath.mk [] "a") = some "h1"
      ∧ demoHash (FPath.mk [] "b") = some "h1")
    ∧ (find_duplicate_candidates demoHash demoIndex).countP
        (fun g => decide (FPath.mk [] "a" ∈ g) &&
          decide (FPath.mk [] "b" ∈ g)) = 1 :=
  ⟨⟨by decide, by decide, by decide, by decide, by decide⟩,
    (claim_C2_duplicate_grouping demoHash demoIndex).1 100
      [FPath.mk [] "a", FPath.mk [] "b", FPath.mk [] "c"]
      (FPath.mk [] "a") (FPath.mk [] "b") "h1"
      (by decide) (by decide) (by decide) (by decide) (by decide)
      (by decide) (by decide)⟩

theorem claim_C3_witness :
    ((([] : List String), DirStats.mk 1 5 [(".txt", ExtStats.mk 1 5)]) ∈
        (scan_directory [⟨[], "a.txt", some 5⟩]).dir_stats)
    ∧ extSumCount (DirStats.mk 1 5 [(".txt", ExtStats.mk 1 5)]).ext =
        (DirStats.mk 1 5 [(".txt", ExtStats.mk 1 5)]).count
    ∧ extSumSize (DirStats.mk 1 5 [(".txt", ExtStats.mk 1 5)]).ext =
        (DirStats.mk 1 5 [(".txt", ExtStats.mk 1 5)]).size :=
  ⟨by decide,
    ((claim_C3_extension_sums [⟨[], "a.txt", some 5⟩]).2.2
      (([] : List String), DirStats.mk 1 5 [(".txt", ExtStats.mk 1 5)])
      (by decide)).1,
    ((claim_C3_extension_sums [⟨[], "a.txt", some 5⟩]).2.2
      (([] : List String), DirStats.mk 1 5 [(".txt", ExtStats.mk 1 5)])
      (by decide)).2⟩

theorem claim_C5_witness :
    pySuffix "a.TXT" ≠ ""
    ∧ extKey "a.TXT" = pyLower (pySuffix "a.TXT") :=
  ⟨by decide, claim_C5_extension_key.2.2.2.2.2.1 "a.TXT" (by decide)⟩

theorem claim_C6_witness :
    ((allPaths demoIndex2).Nodup ∧ (5, [FPath.mk [] "c"]) ∈ demoIndex2)
    ∧ FPath.mk [] "c" ∉ hashedPaths demoIndex2 :=
  ⟨⟨by decide, by decide⟩,
    (claim_C6_singleton_bucket demoHash demoIndex2 5 (FPath.mk [] "c")
      (by decide) (by decide)).1⟩

theorem claim_C7_witness :
    (demoHash (FPath.mk [] "d") = none
      ∧ (100, [FPath.mk [] "a", FPath.mk [] "b", FPath.mk [] "d"]) ∈ demoIndex3)
    ∧ find_duplicate_candidates demoHash demoIndex3 =
        find_duplicate_candidates demoHash
          (demoIndex3.map
            (fun sp => if sp.1 = 100 then (sp.1, sp.2.erase (FPath.mk [] "d"))
              else sp)) :=
  ⟨⟨by decide, by decide⟩,
    (claim_C7_hash_failure demoHash demoIndex3 100
      [FPath.mk [] "a", FPath.mk [] "b", FPath.mk [] "d"] (FPath.mk [] "d")
      (by decide) (by decide) (by decide) (by decide)).2⟩

theorem claim_C10_witness :
    (allPaths demoIndex).Nodup
    ∧ ((find_duplicate_candidates demoHash demoIndex).flatten).Nodup :=
  ⟨by decide, (claim_C10_groups_disjoint demoHash demoIndex (by decide)).1⟩
